import Mathlib

/-!
Verification of the `loads` load-testing harness.

The definitions below are a shallow embedding of the two source files
`loads/test_result.py` and `loads/runner.py`:

* `datetime.utcnow()` timestamps are modelled as natural numbers counting
  whole seconds; `timedelta.seconds` (the seconds component of a Python
  `timedelta`, which normalizes into `[0, 86400)`) is modelled as the
  integer remainder `% 86400`.
* `timedelta.total_seconds()` values are modelled as rationals.
* Python code that can raise an exception is modelled with `Option` or
  `Except Unit`.
* The gevent cooperative scheduler of the local run is modelled as an
  explicit round-robin queue of worker greenlets; `gevent.sleep(0)`
  re-enqueues the running greenlet at the back of the run queue.
-/

namespace Loads

/-! ## Model of `loads/test_result.py` -/

/-- A `loads_status` tuple `(cycle, user, current_cycle, current_user)`. -/
abbrev Status := Option Nat × Option Nat × Option Nat × Option Nat

/-- The `elapsed` argument of `Hit.__init__`: either an actual `timedelta`
(carrying its `total_seconds()` value) or a plain number, which
`timedelta(elapsed)` interprets as a count of days. -/
inductive PyElapsed where
  | td (seconds : Rat)
  | num (value : Rat)
deriving DecidableEq

/-- The `Hit` record of `test_result.py` (lines 232-252), with `elapsed`
stored as its `total_seconds()` value. -/
structure Hit where
  url : String
  method : String
  status : Nat
  started : Nat
  elapsed : Rat
  cycle : Option Nat
  user : Option Nat
  current_cycle : Option Nat
  current_user : Option Nat
  worker_id : Option Nat
deriving DecidableEq

/-- `Hit.__init__`: a non-`timedelta` elapsed value `e` is converted with
`timedelta(e)`, i.e. `e` days, whose `total_seconds()` is `e * 86400`;
a missing (`None`) `loads_status` becomes `(None, None, None, None)`. -/
def mkHit (url method : String) (status started : Nat) (elapsed : PyElapsed)
    (loads_status : Option Status) (worker_id : Option Nat) : Hit :=
  let el : Rat :=
    match elapsed with
    | .td s => s
    | .num v => v * 86400
  let ls := loads_status.getD (none, none, none, none)
  ⟨url, method, status, started, el, ls.1, ls.2.1, ls.2.2.1, ls.2.2.2, worker_id⟩

/-- The `Test` bucket record of `test_result.py` (lines 255-268).
`stop` models the `end` attribute; failures and errors carry the
`exc_info` payloads, modelled as strings. -/
structure TestRec where
  start : Nat
  stop : Option Nat := none
  name : Option String := none
  cycle : Option Nat := none
  current_cycle : Option Nat := none
  user : Option Nat := none
  failures : List String := []
  errors : List String := []
  success : Nat := 0
deriving DecidableEq

/-- `Test.finished`: `bool(self.start and self.end)`; `start` is always a
(truthy) datetime, so this is exactly "`end` has been set". -/
def TestRec.finished (t : TestRec) : Bool := t.stop.isSome

/-- `Test.duration`: `(end - start).seconds` when finished, else `None`. -/
def TestRec.duration (t : TestRec) : Option Int :=
  match t.stop with
  | some e => some (((e : Int) - (t.start : Int)) % 86400)
  | none => none

/-- Key of the `tests` defaultdict:
`(test, current_user, current_cycle, worker_id)`. -/
abbrev TKey := String × Option Nat × Option Nat × Option Nat

/-- The key built by `TestResult._get_test` / `startTest` from a test id,
a `loads_status` tuple and a worker id. -/
def keyOf (test : String) (ls : Status) (worker_id : Option Nat) : TKey :=
  (test, ls.2.2.2, ls.2.2.1, worker_id)

/-- State of a `TestResult` object (the ResultSink), `test_result.py`
lines 20-28.  `tests` is the `defaultdict(Test)` as an insertion-ordered
association list; `observers` is the list of registered observers,
identified by number. -/
structure SinkState where
  hits : List Hit := []
  tests : List (TKey × TestRec) := []
  sockets : Int := 0
  socket_data_received : Nat := 0
  start_time : Option Nat := none
  stop_time : Option Nat := none
  observers : List Nat := []
deriving DecidableEq

/-- A freshly created `Test()` bucket (defaultdict default factory):
`start` is the current time, everything else empty. -/
def newTest (now : Nat) : TestRec := { start := now }

/-- `self.tests[key]` followed by an in-place mutation `f` of the bucket:
the bucket is created by the defaultdict if missing (appended at the end,
as Python dicts preserve insertion order), otherwise updated in place. -/
def updateTest (now : Nat) (k : TKey) (f : TestRec → TestRec) :
    List (TKey × TestRec) → List (TKey × TestRec)
  | [] => [(k, f (newTest now))]
  | (k', t) :: r => if k' = k then (k', f t) :: r else (k', t) :: updateTest now k f r

/-- The mutating calls of `TestResult`, with their original arguments. -/
inductive Event where
  | startTestRun (worker_id : Option Nat)
  | stopTestRun (worker_id : Option Nat)
  | startTest (test : String) (ls : Status) (worker_id : Option Nat)
  | stopTest (test : String) (ls : Status) (worker_id : Option Nat)
  | addError (test : String) (excInfo : String) (ls : Status) (worker_id : Option Nat)
  | addFailure (test : String) (excInfo : String) (ls : Status) (worker_id : Option Nat)
  | addSuccess (test : String) (ls : Status) (worker_id : Option Nat)
  | add_hit (url method : String) (status started : Nat) (elapsed : PyElapsed)
      (ls : Option Status) (worker_id : Option Nat)
  | socket_open (ls : Status) (worker_id : Option Nat)
  | socket_close (ls : Status) (worker_id : Option Nat)
  | socket_message (ls : Status) (size : Nat) (worker_id : Option Nat)
deriving DecidableEq

/-- The Python method name of each mutating call. -/
def eventName : Event → String
  | .startTestRun _ => "startTestRun"
  | .stopTestRun _ => "stopTestRun"
  | .startTest _ _ _ => "startTest"
  | .stopTest _ _ _ => "stopTest"
  | .addError _ _ _ _ => "addError"
  | .addFailure _ _ _ _ => "addFailure"
  | .addSuccess _ _ _ => "addSuccess"
  | .add_hit _ _ _ _ _ _ _ => "add_hit"
  | .socket_open _ _ => "socket_open"
  | .socket_close _ _ => "socket_close"
  | .socket_message _ _ _ => "socket_message"

/-- The state change performed by each mutating `TestResult` method
(`test_result.py` lines 167-206), at ambient time `now`. -/
def applyEvent (now : Nat) (s : SinkState) : Event → SinkState
  | .startTestRun _ => { s with start_time := some now }
  | .stopTestRun _ => { s with stop_time := some now }
  | .startTest t ls wid =>
      { s with tests := (updateTest now (keyOf t ls wid)
          (fun ob => { ob with name := some t, current_cycle := ls.2.2.1, user := ls.2.1 })
          s.tests) }
  | .stopTest t ls wid =>
      { s with tests := (updateTest now (keyOf t ls wid)
          (fun ob => { ob with stop := some now }) s.tests) }
  | .addError t exc ls wid =>
      { s with tests := (updateTest now (keyOf t ls wid)
          (fun ob => { ob with errors := ob.errors ++ [exc] }) s.tests) }
  | .addFailure t exc ls wid =>
      { s with tests := (updateTest now (keyOf t ls wid)
          (fun ob => { ob with failures := ob.failures ++ [exc] }) s.tests) }
  | .addSuccess t ls wid =>
      { s with tests := (updateTest now (keyOf t ls wid)
          (fun ob => { ob with success := ob.success + 1 }) s.tests) }
  | .add_hit url method status started elapsed ls wid =>
      { s with hits := s.hits ++ [mkHit url method status started elapsed ls wid] }
  | .socket_open _ _ => { s with sockets := s.sockets + 1 }
  | .socket_close _ _ => { s with sockets := s.sockets - 1 }
  | .socket_message _ size _ =>
      { s with socket_data_received := s.socket_data_received + size }

/-- The tuple of method names intercepted by `TestResult.__getattribute__`
(`test_result.py` lines 212-214), copied verbatim from the source. -/
def notifyNames : List String :=
  ["startTestRun", "stopTestRun", "startTest", "stopTest",
   "addError", "addFailure", "addSuccess", "add_hit",
   "socket_open", "socket_message"]

/-- Whether a mutating call triggers the observer-notification wrapper. -/
def notified (e : Event) : Bool := notifyNames.contains (eventName e)

/-- One wrapped call, as performed by the `wrapper` closure in
`__getattribute__`: run the method, then push `(name, *args)` to every
observer in registration order.  Each list element of the result is one
`obs.push` invocation, `(observer, event)`. -/
def stepEvent (s : SinkState) (te : Nat × Event) : SinkState × List (Nat × Event) :=
  let s2 := applyEvent te.1 s te.2
  (s2, if notified te.2 then s2.observers.map (fun o => (o, te.2)) else [])

/-- Replay a timestamped sequence of mutating calls, collecting every
observer push in the order it happens. -/
def runEvents (s : SinkState) : List (Nat × Event) → SinkState × List (Nat × Event)
  | [] => (s, [])
  | te :: tr =>
    let p := stepEvent s te
    let r := runEvents p.1 tr
    (r.1, p.2 ++ r.2)

/-- The final state after a sequence of mutating calls. -/
def applyAll (s : SinkState) (tr : List (Nat × Event)) : SinkState :=
  tr.foldl (fun s te => applyEvent te.1 s te.2) s

/-- `TestResult.nb_tests`: `len(self.tests)`. -/
def nb_tests (s : SinkState) : Nat := s.tests.length

/-- The hit filter of `TestResult._get_hits` (cycle check first, then
url, mirroring the source's early returns). -/
def hitMatch (url : Option String) (cycle : Option Nat) (h : Hit) : Bool :=
  (match cycle with
   | none => true
   | some c => h.current_cycle == some c) &&
  (match url with
   | none => true
   | some v => h.url == v)

/-- `TestResult._get_hits(url, cycle)`. -/
def get_hits (s : SinkState) (url : Option String) (cycle : Option Nat) : List Hit :=
  s.hits.filter (hitMatch url cycle)

/-- The test filter of `TestResult._get_tests` (name, then cycle, then
finished, mirroring the source's early returns). -/
def testMatch (name : Option String) (cycle : Option Nat) (finished : Option Bool)
    (t : TestRec) : Bool :=
  (match name with
   | none => true
   | some n => t.name == some n) &&
  (match cycle with
   | none => true
   | some c => t.current_cycle == some c) &&
  (match finished with
   | none => true
   | some f => t.finished == f)

/-- `TestResult._get_tests(name, cycle, finished)` over `tests.values()`. -/
def get_tests (s : SinkState) (name : Option String) (cycle : Option Nat)
    (finished : Option Bool) : List TestRec :=
  (s.tests.map (fun p => p.2)).filter (testMatch name cycle finished)

/-- `TestResult.average_request_time(url, cycle)`: mean of the
`total_seconds()` of the matching hits, `0` when no hit matches. -/
def average_request_time (s : SinkState) (url : Option String) (cycle : Option Nat) : Rat :=
  let elapsed := (get_hits s url cycle).map (fun h => h.elapsed)
  if elapsed.isEmpty then 0
  else elapsed.sum / (elapsed.length : Rat)

/-- Python's `sum` over a list that may contain `None`: `0 + None` (or any
later `int + None`) raises `TypeError`, modelled as `none`. -/
def sumOptInt : List (Option Int) → Option Int
  | [] => some 0
  | none :: _ => none
  | some x :: r => (sumOptInt r).map (fun t => x + t)

/-- The guard `if t is not None` of `average_test_duration`: `t` is drawn
from `self.tests.values()`, whose elements are always `Test` instances,
so the guard is vacuously true. -/
def isNotNoneTest (_t : TestRec) : Bool := true

/-- `TestResult.average_test_duration(test, cycle)` (lines 152-156).
The comprehension keeps `t.duration` for every matching test whose
*object* is not `None` (which is all of them); summing then raises
`TypeError` (modelled as `.error ()`) as soon as an unfinished test's
`None` duration is included.  An empty list yields Python's implicit
`None` result, modelled as `.ok none`. -/
def average_test_duration (s : SinkState) (name : Option String) (cycle : Option Nat) :
    Except Unit (Option Rat) :=
  let durations := ((get_tests s name cycle none).filter isNotNoneTest).map TestRec.duration
  if durations.isEmpty then .ok none
  else
    match sumOptInt durations with
    | none => .error ()
    | some tot => .ok (some ((tot : Rat) / (durations.length : Rat)))

/-- `TestResult.tests_per_second` (lines 148-150):
`nb_tests / float((self.stop_time - self.start_time).seconds)`.
When `stop_time` is `None` the subtraction raises `TypeError`; when the
seconds component is `0` the division raises `ZeroDivisionError`.  Both
are modelled as `.error ()`. -/
def tests_per_second (s : SinkState) : Except Unit Rat :=
  match s.stop_time, s.start_time with
  | some st, some sa =>
      let secs : Int := ((st : Int) - (sa : Int)) % 86400
      if secs = 0 then .error ()
      else .ok ((nb_tests s : Rat) / (secs : Rat))
  | _, _ => .error ()

/-- `success + len(failures) + len(errors)` of one `Test` bucket. -/
def outcomeCount (t : TestRec) : Nat :=
  t.success + t.failures.length + t.errors.length

/-- The sum of `success + len(failures) + len(errors)` over all buckets. -/
def totalOutcomes (ts : List (TKey × TestRec)) : Nat :=
  (ts.map (fun p => outcomeCount p.2)).sum

/-- Whether a mutating call reports an invocation outcome
(`addSuccess`, `addFailure` or `addError`). -/
def isOutcome : Event → Bool
  | .addSuccess _ _ _ => true
  | .addFailure _ _ _ _ => true
  | .addError _ _ _ _ => true
  | _ => false

/-! ## Model of `loads/runner.py` -/

/-- `s.split(':')` on the character list of a spec string: colon-separated
tokens, empty tokens preserved (Python `str.split` with an explicit
separator). -/
def splitCols : List Char → List (List Char)
  | [] => [[]]
  | c :: rest =>
    let r := splitCols rest
    if c = ':' then [] :: r
    else
      match r with
      | [] => [[c]]
      | t :: ts => (c :: t) :: ts

/-- Digit accumulator for `int(token)`. -/
def natOfDigits : Nat → List Char → Option Nat
  | acc, [] => some acc
  | acc, c :: r => if c.isDigit then natOfDigits (acc * 10 + (c.toNat - 48)) r else none

/-- Python `int(token)` on a plain (optionally negated) decimal numeral;
any other token raises `ValueError`, modelled as `none`. -/
def pyInt : List Char → Option Int
  | [] => none
  | '-' :: rest =>
    match rest with
    | [] => none
    | _ => (natOfDigits 0 rest).map (fun n => -(n : Int))
  | cs => (natOfDigits 0 cs).map (fun n => (n : Int))

/-- `[int(tok) for tok in spec.split(':')]`: the whole comprehension
raises (`none`) as soon as one token fails to parse. -/
def parseSpec (s : String) : Option (List Int) :=
  (splitCols s.data).mapM pyInt

/-- The fields of the `args` dict used by `_compute`. -/
structure Args where
  users : String
  cycles : String
  agents : Option Int
deriving DecidableEq

/-- `runner._compute(args)` (lines 27-36): parse the colon-separated
`users` and `cycles` specs, accumulate
`total = sum over users of sum([cycle * user for cycle in cycles])`,
multiply by `agents` when it is not `None`, and return
`(total, cycles, users, agents)` with both lists in parse order.
No validation of the parsed values is performed. -/
def _compute (a : Args) : Option (Int × List Int × List Int × Option Int) :=
  match parseSpec a.users, parseSpec a.cycles with
  | some users, some cycles =>
    let total := users.foldl (fun t u => t + (cycles.map (fun c => c * u)).sum) 0
    let total :=
      match a.agents with
      | some ag => total * ag
      | none => total
    some (total, cycles, users, a.agents)
  | _, _ => none

/-! ### The local cooperative scheduler (`_run` and `run`, lines 18-24 and 57-63)

A worker greenlet's body is compiled to a list of atomic instructions:
`set c u` is the pair of attribute assignments `test.current_cycle = cycle;
test.current_user = user`, `inv c u` is one scenario invocation
`test(test_result)` (tagged with the cycle size and user tier it belongs
to), and `yld` is `gevent.sleep(0)`.  A greenlet runs without preemption
until it executes `yld` (or finishes); `gevent.sleep(0)` re-enqueues it at
the back of the run queue (FIFO round robin). -/

/-- One atomic step of a worker greenlet. -/
inductive Instr where
  | set (c u : Nat)
  | inv (c u : Nat)
  | yld
deriving DecidableEq

/-- The inner loop `for x in range(k): test(test_result); gevent.sleep(0)`
(still) owing `k` invocations of a cycle of size `c` in tier `u`. -/
def invBlock (c u : Nat) : Nat → List Instr
  | 0 => []
  | k + 1 => .inv c u :: .yld :: invBlock c u k

/-- One iteration of `for cycle in cycles` in `_run`: set the context
attributes, then perform the `cycle` invocations. -/
def cycleBlock (u c : Nat) : List Instr :=
  .set c u :: invBlock c u c

/-- The whole body of `_run(num, test, test_result, cycles, user)`. -/
def workerProg (cycles : List Nat) (u : Nat) : List Instr :=
  match cycles with
  | [] => []
  | c :: cs => cycleBlock u c ++ workerProg cs u

/-- The shared scenario object's `(current_cycle, current_user)` attribute
pair; `none` models a not-yet-set attribute. -/
abbrev Ctx := Option Nat × Option Nat

/-- One recorded scenario invocation: which worker performed it, the cycle
size and user tier of the loop iteration it belongs to, and the values of
`current_cycle` / `current_user` on the shared scenario object at the
moment of the call. -/
structure Ev where
  worker : Nat
  cycle : Nat
  user : Nat
  ctxCycle : Option Nat
  ctxUser : Option Nat
deriving DecidableEq

/-- Run one greenlet burst: execute instructions, updating the shared
context and recording invocations, until the first `yld` (or the end of
the program).  Returns the new context, the recorded invocations and the
remaining program. -/
def runBurst (w : Nat) : Ctx → List Instr → Ctx × List Ev × List Instr
  | ctx, [] => (ctx, [], [])
  | _ctx, .set c u :: rest => runBurst w (some c, some u) rest
  | ctx, .inv c u :: rest =>
    let r := runBurst w ctx rest
    (r.1, ⟨w, c, u, ctx.1, ctx.2⟩ :: r.2.1, r.2.2)
  | ctx, .yld :: rest => (ctx, [], rest)

/-- Fuel bound for the round-robin loop: every burst consumes at least one
instruction, and a finished greenlet leaves the queue. -/
def qMeasure (q : List (Nat × List Instr)) : Nat :=
  (q.map (fun p => p.2.length + 1)).sum

/-- Fuelled FIFO round-robin scheduler: pop the front greenlet, run one
burst, re-enqueue it at the back unless finished.  With fuel at least
`qMeasure q` the queue always drains (see `runQueueF_fuel_eq`-style
lemmas below); the queue holds `(worker id, remaining program)` pairs. -/
def runQueueF : Nat → Ctx → List (Nat × List Instr) → Ctx × List Ev
  | 0, ctx, _ => (ctx, [])
  | _ + 1, ctx, [] => (ctx, [])
  | fuel + 1, ctx, (w, prog) :: rest =>
    match prog with
    | [] => runQueueF fuel ctx rest
    | i :: is =>
      let b := runBurst w ctx (i :: is)
      let q2 := if b.2.2.isEmpty then rest else rest ++ [(w, b.2.2)]
      let r := runQueueF fuel b.1 q2
      (r.1, b.2.1 ++ r.2)

/-- Run a greenlet queue to completion. -/
def runQueue (ctx : Ctx) (q : List (Nat × List Instr)) : Ctx × List Ev :=
  runQueueF (qMeasure q) ctx q

/-- The queue spawned for one user tier (`run`, lines 57-61): `u` workers,
spawned in order `0, 1, ..., u-1`, each with the same program. -/
def tierInit (cycles : List Nat) (u : Nat) : List (Nat × List Instr) :=
  (List.range u).map (fun i => (i, workerProg cycles u))

/-- The tier loop of `run` (lines 57-63): each tier's group is spawned and
joined before the next tier begins; the shared scenario object (and hence
its context attributes) persists across tiers.  Returns the final context
and the per-tier invocation traces. -/
def runTiers (ctx : Ctx) (users cycles : List Nat) : Ctx × List (List Ev) :=
  match users with
  | [] => (ctx, [])
  | u :: us =>
    let t := runQueue ctx (tierInit cycles u)
    let r := runTiers t.1 us cycles
    (r.1, t.2 :: r.2)

/-- The full invocation trace of a local run. -/
def runLocal (users cycles : List Nat) : List Ev :=
  ((runTiers (none, none) users cycles).2).flatten

/-- The `recv_result` loop of `distributed_run` (lines 91-103): per
inbound message, push it to the local echo stream, increment the received
counter, and stop the io loop when the counter reaches `total`.  Returns
`(final counter, messages processed, loop stopped)`; when the inbound
stream is exhausted without reaching `total` the loop keeps waiting
(`stopped = false`). -/
def recvSteps (total : Nat) : Nat → List String → Nat × List String × Bool
  | received, [] => (received, [], false)
  | received, m :: ms =>
    let r := received + 1
    if r = total then (r, [m], true)
    else
      let rest := recvSteps total r ms
      (rest.1, m :: rest.2.1, rest.2.2)

/-! ### Worker phases

A worker greenlet of a tier only ever pauses at a `yld`, so its remaining
program is always of the shape `invBlock c u k ++ workerProg cs u`: `k`
pending invocations of the current cycle of size `c`, followed by the
remaining cycles `cs`.  Such a shape is summarized by the phase triple
`(c, k, cs)`. -/

/-- A worker phase `(c, k, cs)`. -/
abbrev Phase := Nat × Nat × List Nat

/-- The remaining program a phase stands for. -/
def progOfT (u : Nat) (p : Phase) : List Instr :=
  invBlock p.1 u p.2.1 ++ workerProg p.2.2 u

/-- The phase reached after running one burst. -/
def nextPhase : Phase → Phase
  | (c, k + 1, cs) => (c, k, cs)
  | (_, 0, c' :: cs') => (c', c' - 1, cs')
  | (c, 0, []) => (c, 0, [])

/-- Context adequacy: a worker about to run a mid-cycle burst (pending
invocations not preceded by a `set`) needs the shared context to already
hold its cycle size and user tier. -/
def GoodCtxT (u : Nat) (ctx : Ctx) (p : Phase) : Prop :=
  1 ≤ p.2.1 → ctx = (some p.1, some u)

/-- The `(cycle, user)` tags of the invocations remaining in a program,
in program order. -/
def invTags : List Instr → List (Nat × Nat)
  | [] => []
  | .inv c u :: r => (c, u) :: invTags r
  | .set _ _ :: r => invTags r
  | .yld :: r => invTags r

/-- Programs in which every invocation is immediately followed by a yield
to the scheduler. -/
inductive YieldsAfterInv : List Instr → Prop
  | nil : YieldsAfterInv []
  | set (c u : Nat) {l : List Instr} :
      YieldsAfterInv l → YieldsAfterInv (.set c u :: l)
  | yld {l : List Instr} :
      YieldsAfterInv l → YieldsAfterInv (.yld :: l)
  | inv (c u : Nat) {l : List Instr} :
      YieldsAfterInv l → YieldsAfterInv (.inv c u :: .yld :: l)

/-! ## Concrete states used as inputs of counterexamples and witnesses -/

/-- A freshly constructed `TestResult()`. -/
def initSink : SinkState := {}

/-- A bucket key for a test named `t1`. -/
def keyA : TKey := (("t1" : String), none, none, none)

/-- A bucket key for a test named `t2`. -/
def keyB : TKey := (("t2" : String), none, none, none)

/-- A sink holding one finished test (duration 5 s) and one unfinished
test. -/
def sinkC5 : SinkState :=
  { tests := [(keyA, { start := 0, stop := some 5 }), (keyB, { start := 0 })] }

/-- A sink where the run start is recorded but `stopTestRun` has not been
called, holding one test bucket. -/
def sinkC7 : SinkState := { start_time := some 0, tests := [(keyA, { start := 0 })] }

/-- A sink whose run start and stop are both recorded (10 s apart). -/
def sinkW7 : SinkState := { start_time := some 0, stop_time := some 10 }

/-- A sink with one registered observer and one open socket. -/
def sinkC2 : SinkState := { sockets := 1, observers := [0] }

/-- A sink holding two hits with elapsed times of 1 s and 3 s. -/
def sinkW9 : SinkState :=
  { hits := [mkHit ("u1") ("GET") 200 0 (.td 1) none none,
             mkHit ("u1") ("GET") 200 0 (.td 3) none none] }

/-- Six `addSuccess` outcome reports against the same bucket. -/
def traceW4 : List (Nat × Event) :=
  List.replicate 6 (0, Event.addSuccess ("t1") (none, none, none, none) none)

/-! ## Helper lemmas -/

lemma sum_map_mul (cs : List Int) (u : Int) :
    (cs.map (fun c => c * u)).sum = u * cs.sum := by
  induction cs with
  | nil => simp
  | cons c cs ih => simp [ih]; ring

lemma foldl_compute_total (cs : List Int) (us : List Int) :
    ∀ init : Int,
      us.foldl (fun t u => t + (cs.map (fun c => c * u)).sum) init
        = init + (us.map (fun u => u * cs.sum)).sum := by
  induction us with
  | nil => intro init; simp
  | cons u us ih =>
    intro init
    rw [List.foldl_cons, ih, sum_map_mul]
    simp only [List.map_cons, List.sum_cons]
    ring

/-! ## Claim theorems -/

/-- C1: for every users spec and cycles spec that parse to
positive-integer lists and every optional agent count, `_compute` returns
`expectedTotal = agentCount (default 1) × Σ_u (u × Σ cycles)` together
with the cycle and user lists in their original parse order. -/
theorem c1_expected_total (uSpec cSpec : String) (agents : Option Int) (us cs : List Int)
    (hu : parseSpec uSpec = some us) (hc : parseSpec cSpec = some cs)
    (hup : ∀ u ∈ us, 1 ≤ u) (hcp : ∀ c ∈ cs, 1 ≤ c) :
    _compute ⟨uSpec, cSpec, agents⟩
      = some (agents.getD 1 * (us.map (fun u => u * cs.sum)).sum, cs, us, agents) := by
  unfold _compute
  simp only [hu, hc]
  rw [foldl_compute_total cs us 0, zero_add]
  cases agents with
  | none => simp
  | some ag => simp [mul_comm]

/-- Witness for C1 at `users="2:1"`, `cycles="3"`, `agents=2`. -/
theorem c1_expected_total_witness :
    parseSpec ("2:1") = some [2, 1] ∧ parseSpec ("3") = some [3]
    ∧ (∀ u ∈ ([2, 1] : List Int), 1 ≤ u) ∧ (∀ c ∈ ([3] : List Int), 1 ≤ c)
    ∧ _compute ⟨("2:1"), ("3"), some 2⟩
        = some ((some 2 : Option Int).getD 1
            * (([2, 1] : List Int).map (fun u => u * ([3] : List Int).sum)).sum,
          [3], [2, 1], some 2) :=
  ⟨by decide, by decide, by decide, by decide,
    c1_expected_total ("2:1") ("3") (some 2) [2, 1] [3]
      (by decide) (by decide) (by decide) (by decide)⟩

/-- C3 counterexample: the users spec `"0"` contains a value `< 1`, yet
`_compute` raises no configuration error and returns a plan containing
the non-positive tier `0`. -/
theorem c3_counterexample :
    _compute ⟨("0"), ("1"), none⟩ = some (0, [1], [0], none) ∧ (0 : Int) < 1 := by
  exact ⟨by decide, by decide⟩

/-- C3 amended: `_compute` performs no positivity validation: whenever
every colon-separated token of both specs parses as an integer, the
computation succeeds and returns the parsed lists unchanged — including
any values `< 1`; only a non-integer token makes it fail
(Python `ValueError`). -/
theorem c3_no_positivity_check (uSpec cSpec : String) (agents : Option Int)
    (us cs : List Int)
    (hu : parseSpec uSpec = some us) (hc : parseSpec cSpec = some cs) :
    ∃ t, _compute ⟨uSpec, cSpec, agents⟩ = some (t, cs, us, agents) := by
  unfold _compute
  simp only [hu, hc]
  exact ⟨_, rfl⟩

/-- Witness for the amended C3 at the non-positive spec `users="0"`. -/
theorem c3_no_positivity_check_witness :
    parseSpec ("0") = some [0] ∧ ¬ (1 : Int) ≤ 0
    ∧ ∃ t, _compute ⟨("0"), ("1"), none⟩ = some (t, [1], [0], none) :=
  ⟨by decide, by decide,
    c3_no_positivity_check ("0") ("1") none [0] [1] (by decide) (by decide)⟩

/-- C5 (code bug): `average_test_duration` keeps the `None` duration of an
unfinished matching test (the guard `if t is not None` tests the object,
never `None`, instead of its duration), so on a sink with one finished
test of duration 5 s and one unfinished test it raises `TypeError`
instead of returning the mean of the finished durations. -/
theorem c5_unfinished_duration_crash :
    average_test_duration sinkC5 none none = Except.error ()
    ∧ TestRec.duration { start := 0, stop := some 5 } = some 5
    ∧ TestRec.duration ({ start := 0 } : TestRec) = none
    ∧ isNotNoneTest ({ start := 0 } : TestRec) = true := by
  exact ⟨rfl, rfl, rfl, rfl⟩

/-- C7 counterexample: with the run start recorded but `stopTestRun` not
yet called, `tests_per_second` subtracts `None` and raises `TypeError`
instead of using the `(stop_time or now) - start_time` duration. -/
theorem c7_counterexample :
    sinkC7.start_time = some 0 ∧ sinkC7.stop_time = none ∧ nb_tests sinkC7 = 1
    ∧ tests_per_second sinkC7 = Except.error () := by
  exact ⟨rfl, rfl, rfl, rfl⟩

/-- C7 amended: `tests_per_second` divides `nb_tests` by the whole-second
difference `(stop_time - start_time).seconds`; it is defined only when
`stopTestRun` has already been called (and the seconds component is
nonzero), and raises `TypeError` otherwise. -/
theorem c7_tests_per_second (s : SinkState) (sa st : Nat)
    (h1 : s.start_time = some sa) (h2 : s.stop_time = some st)
    (h3 : ((st : Int) - (sa : Int)) % 86400 ≠ 0) :
    tests_per_second s
      = Except.ok ((nb_tests s : Rat) / ((((st : Int) - (sa : Int)) % 86400 : Int) : Rat)) := by
  unfold tests_per_second
  rw [h1, h2]
  simp [h3]

/-- Witness for the amended C7: start at 0 s, stop at 10 s. -/
theorem c7_tests_per_second_witness :
    tests_per_second sinkW7
      = Except.ok ((nb_tests sinkW7 : Rat)
          / (((((10 : Nat) : Int) - ((0 : Nat) : Int)) % 86400 : Int) : Rat)) :=
  c7_tests_per_second sinkW7 0 10 rfl rfl (by decide)

/-- Arrival-order-independent helper for the receive loop: starting below
the expected total, the loop stops exactly when the counter reaches the
total, processing exactly the messages up to that point; if the stream is
exhausted first, it counts every message and keeps waiting. -/
lemma recvSteps_spec (total : Nat) (msgs : List String) :
    ∀ received : Nat, received < total →
      (total ≤ received + msgs.length →
        recvSteps total received msgs = (total, msgs.take (total - received), true))
      ∧ (received + msgs.length < total →
        recvSteps total received msgs = (received + msgs.length, msgs, false)) := by
  induction msgs with
  | nil =>
    intro received hr
    exact ⟨fun h => absurd h (by simpa using hr), fun _ => by simp [recvSteps]⟩
  | cons m ms ih =>
    intro received hr
    by_cases he : received + 1 = total
    · constructor
      · intro _
        have htake : (total - received) = 1 := by omega
        simp [recvSteps, he, htake]
      · intro h
        simp at h
        omega
    · have hr2 : received + 1 < total := by omega
      have h2 := ih (received + 1) hr2
      constructor
      · intro h
        have hle : total ≤ received + 1 + ms.length := by simp at h; omega
        have htake : total - received = (total - (received + 1)) + 1 := by omega
        simp [recvSteps, he, h2.1 hle, htake]
      · intro h
        have hlt : received + 1 + ms.length < total := by simp at h; omega
        simp [recvSteps, he, h2.2 hlt]
        omega

/-- C8: for every expected total `N ≥ 1` and inbound message stream, the
receive loop counts one per message and stops exactly at the `N`-th
message — never earlier (fewer than `N` messages leave it waiting) and
processing nothing beyond the `N`-th. -/
theorem c8_recv_loop (total : Nat) (msgs : List String) (h1 : 1 ≤ total) :
    (total ≤ msgs.length → recvSteps total 0 msgs = (total, msgs.take total, true))
    ∧ (msgs.length < total → recvSteps total 0 msgs = (msgs.length, msgs, false)) := by
  have h := recvSteps_spec total msgs 0 (by omega)
  simpa using h

/-- Witness for C8 with `N = 2` and three inbound messages. -/
theorem c8_recv_loop_witness :
    recvSteps 2 0 [("a"), ("b"), ("c")] = (2, [("a"), ("b")], true) := by
  have h := (c8_recv_loop 2 [("a"), ("b"), ("c")] (by decide)).1 (by decide)
  simpa using h

/-- C9: `average_request_time` returns `0` when no hit matches the
filters (no division happens), and the arithmetic mean of the matching
hits' elapsed seconds otherwise. -/
theorem c9_average_request_time (s : SinkState) (url : Option String) (cycle : Option Nat) :
    ((get_hits s url cycle).map (fun h => h.elapsed) = [] →
      average_request_time s url cycle = 0)
    ∧ ((get_hits s url cycle).map (fun h => h.elapsed) ≠ [] →
      average_request_time s url cycle
          * (((get_hits s url cycle).map (fun h => h.elapsed)).length : Rat)
        = ((get_hits s url cycle).map (fun h => h.elapsed)).sum
      ∧ average_request_time s url cycle
        = ((get_hits s url cycle).map (fun h => h.elapsed)).sum
            / (((get_hits s url cycle).map (fun h => h.elapsed)).length : Rat)) := by
  constructor
  · intro h
    simp [average_request_time, h]
  · intro h
    have hlen : (((get_hits s url cycle).map (fun h => h.elapsed)).length : Rat) ≠ 0 := by
      simpa using h
    have hne : ((get_hits s url cycle).map (fun h => h.elapsed)).isEmpty = false := by
      simpa [List.isEmpty_iff] using h
    have hlen2 : ((get_hits s url cycle).length : Rat) ≠ 0 := by
      simpa using hlen
    constructor
    · simp [average_request_time, hne, div_mul_cancel₀ _ hlen2]
    · simp [average_request_time, hne]

/-- Witness for C9 on a sink with two matching hits (1 s and 3 s). -/
theorem c9_average_request_time_witness :
    (get_hits sinkW9 none none).map (fun h => h.elapsed) ≠ []
    ∧ (average_request_time sinkW9 none none
          * (((get_hits sinkW9 none none).map (fun h => h.elapsed)).length : Rat)
        = ((get_hits sinkW9 none none).map (fun h => h.elapsed)).sum
      ∧ average_request_time sinkW9 none none
        = ((get_hits sinkW9 none none).map (fun h => h.elapsed)).sum
            / (((get_hits sinkW9 none none).map (fun h => h.elapsed)).length : Rat)) :=
  ⟨by decide, (c9_average_request_time sinkW9 none none).2 (by decide)⟩

/-- C10: `Hit.__init__` interprets a plain-number `elapsed` as a count of
days (`timedelta(elapsed)`), so its `total_seconds()` is `e * 86400`; and
a missing `loads_status` leaves `cycle`, `user`, `current_cycle` and
`current_user` all `None`. -/
theorem c10_hit_init (url method : String) (status started : Nat) (e : Rat)
    (el : PyElapsed) (ls : Option Status) (wid : Option Nat) :
    (mkHit url method status started (PyElapsed.num e) ls wid).elapsed = e * 86400
    ∧ (mkHit url method status started el none wid).cycle = none
    ∧ (mkHit url method status started el none wid).user = none
    ∧ (mkHit url method status started el none wid).current_cycle = none
    ∧ (mkHit url method status started el none wid).current_user = none := by
  exact ⟨rfl, rfl, rfl, rfl, rfl⟩

lemma observers_applyEvent (now : Nat) (s : SinkState) (e : Event) :
    (applyEvent now s e).observers = s.observers := by
  cases e <;> rfl

/-- C2 counterexample: `socket_close` is missing from the tuple of method
names intercepted by `__getattribute__`, so a mutating `socket_close`
call (here: closing the one open socket of `sinkC2`, observed by one
registered observer) commits its state change but produces zero observer
pushes instead of exactly one. -/
theorem c2_socket_close_not_notified :
    (applyEvent 0 sinkC2 (Event.socket_close (none, none, none, none) none)).sockets = 0
    ∧ sinkC2.observers = [0]
    ∧ (runEvents sinkC2 [(0, Event.socket_close (none, none, none, none) none)]).2 = [] := by
  exact ⟨rfl, rfl, rfl⟩

/-- C2 amended: replaying any sequence of mutating calls pushes, for every
call whose method name is in the intercepted tuple — that is, every
mutating call except `socket_close` — the event name and original
arguments to each registered observer, synchronously after the state
change, in registration order, one push batch per call, in call order;
`socket_close` commits its state change without notifying anyone. -/
theorem c2_observer_notification (s : SinkState) (tr : List (Nat × Event)) :
    (runEvents s tr).2
      = tr.flatMap (fun te =>
          if notified te.2 then s.observers.map (fun o => (o, te.2)) else [])
    ∧ (runEvents s tr).1 = applyAll s tr
    ∧ ∀ e : Event, (notified e = true ↔ eventName e ≠ "socket_close") := by
  refine ⟨?_, ?_, ?_⟩
  · induction tr generalizing s with
    | nil => rfl
    | cons te tr ih =>
      simp [runEvents, stepEvent, observers_applyEvent, ih]
  · induction tr generalizing s with
    | nil => rfl
    | cons te tr ih =>
      simp [runEvents, stepEvent, applyAll, ih]
  · intro e
    cases e <;> simp [notified, eventName, notifyNames]

lemma totalOutcomes_updateTest (now : Nat) (k : TKey) (f : TestRec → TestRec) (d : Nat)
    (hf : ∀ t, outcomeCount (f t) = outcomeCount t + d) :
    ∀ ts : List (TKey × TestRec),
      totalOutcomes (updateTest now k f ts) = totalOutcomes ts + d
  | [] => by
    have h0 : outcomeCount (newTest now) = 0 := rfl
    simp [updateTest, totalOutcomes, hf, h0]
  | (k', t) :: r => by
    by_cases hk : k' = k
    · simp [updateTest, hk, totalOutcomes, hf]
      omega
    · have hr := totalOutcomes_updateTest now k f d hf r
      simp only [totalOutcomes, updateTest, if_neg hk, List.map_cons, List.sum_cons] at hr ⊢
      omega

lemma totalOutcomes_applyEvent (now : Nat) (s : SinkState) (e : Event) :
    totalOutcomes (applyEvent now s e).tests
      = totalOutcomes s.tests + (if isOutcome e then 1 else 0) := by
  cases e with
  | startTest t ls wid =>
    simpa [applyEvent, isOutcome] using
      totalOutcomes_updateTest now (keyOf t ls wid) _ 0
        (fun ob => by simp [outcomeCount]) s.tests
  | stopTest t ls wid =>
    simpa [applyEvent, isOutcome] using
      totalOutcomes_updateTest now (keyOf t ls wid) _ 0
        (fun ob => by simp [outcomeCount]) s.tests
  | addError t exc ls wid =>
    simpa [applyEvent, isOutcome] using
      totalOutcomes_updateTest now (keyOf t ls wid) _ 1
        (fun ob => by simp [outcomeCount]; omega) s.tests
  | addFailure t exc ls wid =>
    simpa [applyEvent, isOutcome] using
      totalOutcomes_updateTest now (keyOf t ls wid) _ 1
        (fun ob => by simp [outcomeCount]; omega) s.tests
  | addSuccess t ls wid =>
    simpa [applyEvent, isOutcome] using
      totalOutcomes_updateTest now (keyOf t ls wid) _ 1
        (fun ob => by simp [outcomeCount]; omega) s.tests
  | startTestRun wid => simp [applyEvent, isOutcome]
  | stopTestRun wid => simp [applyEvent, isOutcome]
  | add_hit url method status started elapsed ls wid => simp [applyEvent, isOutcome]
  | socket_open ls wid => simp [applyEvent, isOutcome]
  | socket_close ls wid => simp [applyEvent, isOutcome]
  | socket_message ls size wid => simp [applyEvent, isOutcome]

lemma totalOutcomes_applyAll (tr : List (Nat × Event)) :
    ∀ s : SinkState,
      totalOutcomes (applyAll s tr).tests
        = totalOutcomes s.tests + (tr.filter (fun te => isOutcome te.2)).length := by
  induction tr with
  | nil => intro s; simp [applyAll]
  | cons te tr ih =>
    intro s
    have hstep := totalOutcomes_applyEvent te.1 s te.2
    have h2 := ih (applyEvent te.1 s te.2)
    simp only [applyAll, List.foldl_cons] at *
    rw [h2, hstep]
    by_cases ho : isOutcome te.2 <;> simp [List.filter_cons, ho] <;> omega

/-- C4: a local run with `users="2"`, `cycles="3"` performs exactly six
scenario invocations — the `expectedTotal` `_compute` returns for those
specs — and whenever a replayed call sequence contains exactly six
outcome reports (one per invocation), the sum of
`success + len(failures) + len(errors)` over all `Test` buckets of the
resulting sink is exactly six. -/
theorem c4_six_invocations :
    (runLocal [2] [3]).length = 6
    ∧ _compute ⟨("2"), ("3"), none⟩ = some (6, [3], [2], none)
    ∧ ∀ tr : List (Nat × Event),
        (tr.filter (fun te => isOutcome te.2)).length = 6 →
        totalOutcomes (applyAll initSink tr).tests = 6 := by
  refine ⟨by decide, by decide, fun tr h => ?_⟩
  have := totalOutcomes_applyAll tr initSink
  rw [h] at this
  simpa [initSink, totalOutcomes] using this

/-- Witness for C4's outcome-sum clause on six `addSuccess` reports. -/
theorem c4_six_invocations_witness :
    (traceW4.filter (fun te => isOutcome te.2)).length = 6
    ∧ totalOutcomes (applyAll initSink traceW4).tests = 6 :=
  ⟨by decide, c4_six_invocations.2.2 traceW4 (by decide)⟩

/-! ### Lemmas on bursts and the round-robin queue -/

lemma runBurst_rem_le (w : Nat) : ∀ (ctx : Ctx) (l : List Instr),
    (runBurst w ctx l).2.2.length ≤ l.length := by
  intro ctx l
  induction l generalizing ctx with
  | nil => simp [runBurst]
  | cons i r ih =>
    cases i with
    | set c u => exact le_trans (ih _) (Nat.le_succ _)
    | inv c u => exact le_trans (ih _) (Nat.le_succ _)
    | yld => simp [runBurst]

lemma runBurst_rem_lt (w : Nat) (ctx : Ctx) (l : List Instr) (h : l ≠ []) :
    (runBurst w ctx l).2.2.length < l.length := by
  cases l with
  | nil => exact absurd rfl h
  | cons i r =>
    cases i with
    | set c u => exact Nat.lt_succ_of_le (runBurst_rem_le w _ r)
    | inv c u => exact Nat.lt_succ_of_le (runBurst_rem_le w _ r)
    | yld => simp [runBurst]

lemma runBurst_workers (w : Nat) : ∀ (ctx : Ctx) (l : List Instr),
    ∀ e ∈ (runBurst w ctx l).2.1, e.worker = w := by
  intro ctx l
  induction l generalizing ctx with
  | nil => simp [runBurst]
  | cons i r ih =>
    cases i with
    | set c u => exact ih _
    | inv c u =>
      intro e he
      rcases List.mem_cons.1 he with h | h
      · rw [h]
      · exact ih _ e h
    | yld => simp [runBurst]

lemma runBurst_invTags (w : Nat) : ∀ (ctx : Ctx) (l : List Instr),
    invTags l
      = (runBurst w ctx l).2.1.map (fun e => (e.cycle, e.user))
        ++ invTags (runBurst w ctx l).2.2 := by
  intro ctx l
  induction l generalizing ctx with
  | nil => simp [runBurst, invTags]
  | cons i r ih =>
    cases i with
    | set c u => simpa [runBurst, invTags] using ih (some c, some u)
    | inv c u => simpa [runBurst, invTags] using ih ctx
    | yld => simp [runBurst, invTags]

lemma qMeasure_cons (w : Nat) (prog : List Instr) (rest : List (Nat × List Instr)) :
    qMeasure ((w, prog) :: rest) = prog.length + 1 + qMeasure rest := by
  simp [qMeasure]

lemma qMeasure_append (a b : List (Nat × List Instr)) :
    qMeasure (a ++ b) = qMeasure a + qMeasure b := by
  simp [qMeasure]

lemma runQueueF_cons_nil (fuel : Nat) (ctx : Ctx) (w : Nat)
    (rest : List (Nat × List Instr)) :
    runQueueF (fuel + 1) ctx ((w, []) :: rest) = runQueueF fuel ctx rest := rfl

lemma runQueueF_cons_ne (fuel : Nat) (ctx : Ctx) (w : Nat) (prog : List Instr)
    (rest : List (Nat × List Instr)) (h : prog ≠ []) :
    runQueueF (fuel + 1) ctx ((w, prog) :: rest)
      = ((runQueueF fuel (runBurst w ctx prog).1
            (if (runBurst w ctx prog).2.2.isEmpty then rest
             else rest ++ [(w, (runBurst w ctx prog).2.2)])).1,
         (runBurst w ctx prog).2.1
           ++ (runQueueF fuel (runBurst w ctx prog).1
            (if (runBurst w ctx prog).2.2.isEmpty then rest
             else rest ++ [(w, (runBurst w ctx prog).2.2)])).2) := by
  cases prog with
  | nil => exact absurd rfl h
  | cons i r => rfl

lemma progOfT_zero (u : Nat) (c : Nat) (cs : List Nat) :
    progOfT u (c, 0, cs) = workerProg cs u := by
  simp [progOfT, invBlock]

lemma progOfT_eq_nil {u : Nat} {p : Phase} (h : progOfT u p = []) :
    p.2.1 = 0 ∧ p.2.2 = [] := by
  obtain ⟨c, k, cs⟩ := p
  cases k with
  | zero =>
    cases cs with
    | nil => exact ⟨rfl, rfl⟩
    | cons c' cs' => simp [progOfT, invBlock, workerProg, cycleBlock] at h
  | succ m => simp [progOfT, invBlock] at h

lemma nextPhase_pos {p : Phase} (h : ∀ x ∈ p.2.2, 1 ≤ x) :
    ∀ x ∈ (nextPhase p).2.2, 1 ≤ x := by
  obtain ⟨c, k, cs⟩ := p
  cases k with
  | zero =>
    cases cs with
    | nil => simp [nextPhase]
    | cons c' cs' =>
      intro x hx
      exact h x (List.mem_cons_of_mem c' hx)
  | succ m => exact h

/-- One burst from a phase: the remaining program is the next phase's
program, every recorded invocation carries the worker's tier, and —
provided the context was adequate — every recorded invocation saw
`current_cycle` and `current_user` equal to its own cycle and tier, and
the context stays adequate both for workers still at this phase and for
the next phase. -/
lemma burstStep (w u : Nat) (ctx : Ctx) (p : Phase)
    (hpos : ∀ x ∈ p.2.2, 1 ≤ x) (hne : progOfT u p ≠ []) :
    ∃ ctx2 evs,
      runBurst w ctx (progOfT u p) = (ctx2, evs, progOfT u (nextPhase p))
      ∧ (∀ e ∈ evs, e.user = u)
      ∧ (GoodCtxT u ctx p →
          (∀ e ∈ evs, e.ctxCycle = some e.cycle ∧ e.ctxUser = some e.user)
          ∧ GoodCtxT u ctx2 p ∧ GoodCtxT u ctx2 (nextPhase p)) := by
  obtain ⟨c, k, cs⟩ := p
  cases k with
  | succ m =>
    refine ⟨ctx, [⟨w, c, u, ctx.1, ctx.2⟩], ?_, ?_, ?_⟩
    · simp [progOfT, invBlock, runBurst, nextPhase]
    · intro e he
      rcases List.mem_singleton.1 he with rfl
      rfl
    · intro hg
      have hctx : ctx = (some c, some u) := hg (Nat.succ_le_succ (Nat.zero_le m))
      refine ⟨?_, ?_, ?_⟩
      · intro e he
        rcases List.mem_singleton.1 he with rfl
        rw [hctx]
        exact ⟨rfl, rfl⟩
      · intro _
        exact hctx
      · intro _
        exact hctx
  | zero =>
    cases cs with
    | nil => exact absurd (by simp [progOfT, invBlock, workerProg]) hne
    | cons c' cs' =>
      have hc' : 1 ≤ c' := hpos c' (List.mem_cons_self ..)
      obtain ⟨m', rfl⟩ : ∃ m', c' = m' + 1 := ⟨c' - 1, by omega⟩
      refine ⟨(some (m' + 1), some u), [⟨w, m' + 1, u, some (m' + 1), some u⟩], ?_, ?_, ?_⟩
      · simp [progOfT, invBlock, workerProg, cycleBlock, runBurst, nextPhase]
      · intro e he
        rcases List.mem_singleton.1 he with rfl
        rfl
      · intro _
        refine ⟨?_, ?_, ?_⟩
        · intro e he
          rcases List.mem_singleton.1 he with rfl
          exact ⟨rfl, rfl⟩
        · intro h
          simp at h
        · intro _
          simp [nextPhase]

/-- Round-robin invariant: a queue made of a front group of workers at
phase `p` followed by a back group already advanced to `nextPhase p`
(re-enqueued this round), with an adequate context, only ever records
invocations whose context matches their own cycle size and user tier. -/
lemma runQueueF_ctx (u : Nat) : ∀ (fuel : Nat) (ctx : Ctx) (p : Phase) (ws1 ws2 : List Nat),
    (∀ x ∈ p.2.2, 1 ≤ x) →
    GoodCtxT u ctx p →
    (ws2 ≠ [] → GoodCtxT u ctx (nextPhase p)) →
    (ws1 = [] → ws2 = []) →
    ∀ e ∈ (runQueueF fuel ctx
        (ws1.map (fun w => (w, progOfT u p))
          ++ ws2.map (fun w => (w, progOfT u (nextPhase p))))).2,
      e.ctxCycle = some e.cycle ∧ e.ctxUser = some e.user ∧ e.user = u := by
  intro fuel
  induction fuel with
  | zero =>
    intro ctx p ws1 ws2 _ _ _ _ e he
    simp [runQueueF] at he
  | succ fuel ih =>
    intro ctx p ws1 ws2 hpos hg hg2 hnorm e he
    cases ws1 with
    | nil =>
      have h2 := hnorm rfl
      subst h2
      simp [runQueueF] at he
    | cons w0 ws1' =>
      simp only [List.map_cons, List.cons_append] at he
      by_cases hpe : progOfT u p = []
      · -- the front worker is already finished and is dropped
        rw [hpe, runQueueF_cons_nil] at he
        cases ws1' with
        | nil =>
          cases hw2 : ws2 with
          | nil =>
            subst hw2
            cases fuel <;> simp [runQueueF] at he
          | cons a as =>
            have hgnext : GoodCtxT u ctx (nextPhase p) := hg2 (by simp [hw2])
            exact ih ctx (nextPhase p) ws2 [] (nextPhase_pos hpos) hgnext
              (fun h => absurd rfl h) (fun _ => rfl) e (by simpa using he)
        | cons w1 ws1'' =>
          exact ih ctx p (w1 :: ws1'') ws2 hpos hg hg2
            (fun h => by simp at h) e (by simpa [hpe] using he)
      · -- the front worker runs one burst
        obtain ⟨ctx2, evs, heq, husr, hgoodimp⟩ := burstStep w0 u ctx p hpos hpe
        obtain ⟨hevctx, hg', hg2'⟩ := hgoodimp hg
        rw [runQueueF_cons_ne fuel ctx w0 (progOfT u p) _ hpe] at he
        rw [heq] at he
        simp only [List.mem_append] at he
        rcases he with hev | hrec
        · exact ⟨(hevctx e hev).1, (hevctx e hev).2, husr e hev⟩
        · by_cases hrem : progOfT u (nextPhase p) = []
          · simp only [hrem, List.isEmpty_nil, if_true] at hrec
            cases ws1' with
            | nil =>
              cases hw2 : ws2 with
              | nil =>
                subst hw2
                cases fuel <;> simp [runQueueF] at hrec
              | cons a as =>
                exact ih ctx2 (nextPhase p) ws2 [] (nextPhase_pos hpos) hg2'
                  (fun h => absurd rfl h) (fun _ => rfl) e (by simpa [hrem] using hrec)
            | cons w1 ws1'' =>
              exact ih ctx2 p (w1 :: ws1'') ws2 hpos hg' (fun _ => hg2')
                (fun h => by simp at h) e (by simpa [hrem] using hrec)
          · have hne2 : (progOfT u (nextPhase p)).isEmpty = false := by
              simpa [List.isEmpty_iff] using hrem
            simp only [hne2, Bool.false_eq_true, if_false] at hrec
            cases ws1' with
            | nil =>
              exact ih ctx2 (nextPhase p) (ws2 ++ [w0]) [] (nextPhase_pos hpos) hg2'
                (fun h => absurd h (by simp)) (fun h => absurd h (by simp)) e
                (by simpa using hrec)
            | cons w1 ws1'' =>
              exact ih ctx2 p (w1 :: ws1'') (ws2 ++ [w0]) hpos hg' (fun _ => hg2')
                (fun h => by simp at h) e (by simpa using hrec)

lemma qMeasure_le_zero {q : List (Nat × List Instr)} (h : qMeasure q ≤ 0) : q = [] := by
  cases q with
  | nil => rfl
  | cons a r =>
    rw [show a = (a.1, a.2) from rfl, qMeasure_cons] at h
    omega

/-- Per-worker projection: with enough fuel and distinct worker ids, the
sub-trace of each enqueued worker is exactly the invocation sequence of
its remaining program, and workers not in the queue record nothing. -/
lemma runQueueF_proj : ∀ (fuel : Nat) (ctx : Ctx) (q : List (Nat × List Instr)),
    qMeasure q ≤ fuel →
    (q.map (fun p => p.1)).Nodup →
    (∀ w prog, (w, prog) ∈ q →
      ((runQueueF fuel ctx q).2.filter (fun e => e.worker == w)).map
          (fun e => (e.cycle, e.user))
        = invTags prog)
    ∧ (∀ w, w ∉ q.map (fun p => p.1) →
      (runQueueF fuel ctx q).2.filter (fun e => e.worker == w) = []) := by
  intro fuel
  induction fuel with
  | zero =>
    intro ctx q hm _
    rw [qMeasure_le_zero hm]
    exact ⟨fun w prog hw => absurd hw (by simp), fun w _ => by simp [runQueueF]⟩
  | succ fuel ih =>
    intro ctx q hm hnd
    cases q with
    | nil =>
      exact ⟨fun w prog hw => absurd hw (by simp), fun w _ => by simp [runQueueF]⟩
    | cons front rest =>
      obtain ⟨w0, prog⟩ := front
      rw [qMeasure_cons] at hm
      simp only [List.map_cons, List.nodup_cons] at hnd
      obtain ⟨hw0, hndr⟩ := hnd
      by_cases hpe : prog = []
      · subst hpe
        rw [runQueueF_cons_nil]
        have h := ih ctx rest (by simp at hm; omega) hndr
        constructor
        · intro w p hw
          rcases List.mem_cons.1 hw with hfr | htl
          · injection hfr with hfw hfp
            subst hfw
            subst hfp
            rw [h.2 w hw0]
            simp [invTags]
          · exact h.1 w p htl
        · intro w hw
          exact h.2 w (fun hc => hw (List.mem_cons_of_mem _ hc))
      · rw [runQueueF_cons_ne fuel ctx w0 prog rest hpe]
        have hworkers := runBurst_workers w0 ctx prog
        have htags := runBurst_invTags w0 ctx prog
        have hlt := runBurst_rem_lt w0 ctx prog hpe
        by_cases hrem : (runBurst w0 ctx prog).2.2 = []
        · -- finished: the worker leaves the queue
          simp only [hrem, List.isEmpty_nil, if_true]
          have h := ih (runBurst w0 ctx prog).1 rest (by omega) hndr
          constructor
          · intro w p hw
            rcases List.mem_cons.1 hw with hfr | htl
            · injection hfr with hfw hfp
              subst hfw
              subst hfp
              rw [List.filter_append, List.map_append]
              rw [List.filter_eq_self.2 (fun e he => by simp [hworkers e he])]
              rw [h.2 w hw0]
              rw [htags, hrem]
              simp [invTags]
            · have hne : w ≠ w0 := by
                intro hc
                subst hc
                exact hw0 (List.mem_map.2 ⟨(w, p), htl, rfl⟩)
              rw [List.filter_append, List.map_append]
              rw [List.filter_eq_nil_iff.2
                (fun e he => by simp [hworkers e he, Ne.symm hne])]
              simpa using h.1 w p htl
          · intro w hw
            have hne : w ≠ w0 := fun hc => hw (by simp [hc])
            have hwr : w ∉ rest.map (fun p => p.1) := by
              intro hc
              exact hw (List.mem_cons_of_mem _ hc)
            rw [List.filter_append]
            rw [List.filter_eq_nil_iff.2
              (fun e he => by simp [hworkers e he, Ne.symm hne])]
            simpa using h.2 w hwr
        · -- not finished: the worker is re-enqueued at the back
          have hremEmpty : (runBurst w0 ctx prog).2.2.isEmpty = false := by
            simpa [List.isEmpty_iff] using hrem
          simp only [hremEmpty, Bool.false_eq_true, if_false]
          have hmr : qMeasure (rest ++ [(w0, (runBurst w0 ctx prog).2.2)]) ≤ fuel := by
            rw [qMeasure_append, qMeasure_cons]
            have hz : qMeasure ([] : List (Nat × List Instr)) = 0 := rfl
            rw [hz]
            omega
          have hndq : ((rest ++ [(w0, (runBurst w0 ctx prog).2.2)]).map
              (fun p => p.1)).Nodup := by
            simp only [List.map_append, List.map_cons, List.map_nil]
            rw [List.nodup_append]
            exact ⟨hndr, List.nodup_singleton w0, by simpa using hw0⟩
          have h := ih (runBurst w0 ctx prog).1 _ hmr hndq
          constructor
          · intro w p hw
            rcases List.mem_cons.1 hw with hfr | htl
            · injection hfr with hfw hfp
              subst hfw
              subst hfp
              rw [List.filter_append, List.map_append]
              rw [List.filter_eq_self.2 (fun e he => by simp [hworkers e he])]
              rw [h.1 w (runBurst w ctx p).2.2 (List.mem_append_right _ (by simp))]
              exact htags.symm
            · have hne : w ≠ w0 := by
                intro hc
                subst hc
                exact hw0 (List.mem_map.2 ⟨(w, p), htl, rfl⟩)
              rw [List.filter_append, List.map_append]
              rw [List.filter_eq_nil_iff.2
                (fun e he => by simp [hworkers e he, Ne.symm hne])]
              simpa using h.1 w p (List.mem_append_left _ htl)
          · intro w hw
            have hne : w ≠ w0 := fun hc => hw (by simp [hc])
            have hwr : w ∉ rest.map (fun p => p.1) := by
              intro hc
              exact hw (List.mem_cons_of_mem _ hc)
            rw [List.filter_append]
            rw [List.filter_eq_nil_iff.2
              (fun e he => by simp [hworkers e he, Ne.symm hne])]
            have hwq : w ∉ (rest ++ [(w0, (runBurst w0 ctx prog).2.2)]).map
                (fun p => p.1) := by
              simp only [List.map_append, List.map_cons, List.map_nil, List.mem_append]
              rintro (hc | hc)
              · exact hwr hc
              · simp at hc
                exact hne hc
            simpa using h.2 w hwq

lemma invTags_append : ∀ l₁ l₂ : List Instr, invTags (l₁ ++ l₂) = invTags l₁ ++ invTags l₂
  | [], l₂ => rfl
  | .inv c u :: r, l₂ => by simp [invTags, invTags_append r l₂]
  | .set c u :: r, l₂ => by simp [invTags, invTags_append r l₂]
  | .yld :: r, l₂ => by simp [invTags, invTags_append r l₂]

lemma invTags_invBlock (c u : Nat) : ∀ k, invTags (invBlock c u k) = List.replicate k (c, u)
  | 0 => rfl
  | k + 1 => by simp [invBlock, invTags, invTags_invBlock c u k, List.replicate_succ]

lemma invTags_workerProg (u : Nat) : ∀ cycles : List Nat,
    invTags (workerProg cycles u) = cycles.flatMap (fun c => List.replicate c (c, u))
  | [] => rfl
  | c :: cs => by
    simp [workerProg, cycleBlock, invTags_append, invTags, invTags_invBlock,
      invTags_workerProg u cs]

lemma yieldsAfterInv_append {l₁ l₂ : List Instr}
    (h1 : YieldsAfterInv l₁) (h2 : YieldsAfterInv l₂) : YieldsAfterInv (l₁ ++ l₂) := by
  induction h1 with
  | nil => simpa using h2
  | set c u h ih => exact .set c u ih
  | yld h ih => exact .yld ih
  | inv c u h ih => exact .inv c u ih

lemma yieldsAfterInv_invBlock (c u : Nat) : ∀ k, YieldsAfterInv (invBlock c u k)
  | 0 => .nil
  | k + 1 => .inv c u (yieldsAfterInv_invBlock c u k)

lemma yieldsAfterInv_workerProg (u : Nat) : ∀ cycles : List Nat,
    YieldsAfterInv (workerProg cycles u)
  | [] => .nil
  | c :: cs =>
    yieldsAfterInv_append (.set c u (yieldsAfterInv_invBlock c u c))
      (yieldsAfterInv_workerProg u cs)

lemma yieldsAfterInv_decomp {l : List Instr} (h : YieldsAfterInv l) :
    ∀ l₁ (c v : Nat) l₂, l = l₁ ++ Instr.inv c v :: l₂ → ∃ l₃, l₂ = Instr.yld :: l₃ := by
  induction h with
  | nil =>
    intro l₁ c v l₂ he
    exact absurd he.symm (by simp)
  | set c' u' h ih =>
    intro l₁ c v l₂ he
    cases l₁ with
    | nil => simp at he
    | cons a l₁' =>
      simp only [List.cons_append, List.cons.injEq] at he
      exact ih l₁' c v l₂ he.2
  | yld h ih =>
    intro l₁ c v l₂ he
    cases l₁ with
    | nil => simp at he
    | cons a l₁' =>
      simp only [List.cons_append, List.cons.injEq] at he
      exact ih l₁' c v l₂ he.2
  | inv c' u' h ih =>
    intro l₁ c v l₂ he
    cases l₁ with
    | nil =>
      simp only [List.nil_append, List.cons.injEq] at he
      exact ⟨_, he.2.symm⟩
    | cons a l₁' =>
      simp only [List.cons_append, List.cons.injEq] at he
      cases l₁' with
      | nil => simp at he
      | cons b l₁'' =>
        obtain ⟨-, he2⟩ := he
        simp only [List.cons_append, List.cons.injEq] at he2
        exact ih l₁'' c v l₂ he2.2

/-- Everything C6 claims about one tier: every recorded invocation carries
the tier's user and an adequate context, each worker `w < u` records
exactly the per-cycle invocation sequence of the cycles list in order,
and no other worker records anything. -/
lemma tier_spec (cycles : List Nat) (u : Nat) (hc : ∀ c ∈ cycles, 1 ≤ c) (ctx : Ctx) :
    (∀ e ∈ (runQueue ctx (tierInit cycles u)).2,
      e.user = u ∧ e.ctxCycle = some e.cycle ∧ e.ctxUser = some e.user)
    ∧ (∀ w, w < u →
        (((runQueue ctx (tierInit cycles u)).2.filter (fun e => e.worker == w)).map
            (fun e => (e.cycle, e.user)))
          = cycles.flatMap (fun c => List.replicate c (c, u)))
    ∧ (∀ w, u ≤ w →
        (runQueue ctx (tierInit cycles u)).2.filter (fun e => e.worker == w) = []) := by
  have hq : tierInit cycles u
      = (List.range u).map (fun w => (w, progOfT u (0, 0, cycles)))
        ++ ([] : List Nat).map (fun w => (w, progOfT u (nextPhase (0, 0, cycles)))) := by
    simp [tierInit, progOfT, invBlock]
  have hmain := runQueueF_ctx u (qMeasure (tierInit cycles u)) ctx (0, 0, cycles)
    (List.range u) [] hc (fun h => by simp at h) (fun h => absurd rfl h)
    (fun h => rfl)
  have hproj := runQueueF_proj (qMeasure (tierInit cycles u)) ctx (tierInit cycles u)
    le_rfl (by
      have hid : ((fun (p : Nat × List Instr) => p.1)
          ∘ fun i => (i, workerProg cycles u)) = fun i => i := rfl
      simp only [tierInit, List.map_map, hid]
      simpa using List.nodup_range u)
  simp only [runQueue]
  refine ⟨?_, ?_, ?_⟩
  · intro e he
    have := hmain e (by rw [← hq]; exact he)
    exact ⟨this.2.2, this.1, this.2.1⟩
  · intro w hw
    have hmem : (w, workerProg cycles u) ∈ tierInit cycles u := by
      simp only [tierInit, List.mem_map]
      exact ⟨w, List.mem_range.2 hw, rfl⟩
    rw [hproj.1 w (workerProg cycles u) hmem, invTags_workerProg]
  · intro w hw
    refine hproj.2 w ?_
    simp only [tierInit, List.map_map, List.mem_map]
    rintro ⟨i, hi, rfl⟩
    simp only [Function.comp] at *
    exact absurd (List.mem_range.1 hi) (by omega)

/-- The per-tier statement, threaded through the sequential tier loop. -/
lemma runTiers_spec (cycles : List Nat) (hc : ∀ c ∈ cycles, 1 ≤ c) :
    ∀ (users : List Nat) (ctx : Ctx),
      List.Forall₂ (fun u evs =>
        (∀ e ∈ evs, e.user = u ∧ e.ctxCycle = some e.cycle ∧ e.ctxUser = some e.user)
        ∧ (∀ w, w < u →
            ((evs.filter (fun e => e.worker == w)).map (fun e => (e.cycle, e.user)))
              = cycles.flatMap (fun c => List.replicate c (c, u)))
        ∧ (∀ w, u ≤ w → evs.filter (fun e => e.worker == w) = []))
        users ((runTiers ctx users cycles).2)
  | [], ctx => by simp [runTiers]
  | u :: us, ctx => by
    simp only [runTiers]
    exact List.Forall₂.cons (tier_spec cycles u hc ctx)
      (runTiers_spec cycles hc us (runQueue ctx (tierInit cycles u)).1)

/-- C6: in a local run the user tiers execute sequentially — the trace is
the concatenation of per-tier traces, joined in order — and within each
tier of `u` workers every recorded invocation carries user tier `u` and a
context holding exactly its own cycle size and tier; each worker `w < u`
performs, in order, `c` invocations for every cycle size `c`; workers
outside the tier record nothing; and in the worker program every
invocation is immediately followed by a yield to the scheduler (the
`gevent.sleep(0)` preemption point). -/
theorem c6_local_scheduler (users cycles : List Nat) (hc : ∀ c ∈ cycles, 1 ≤ c) :
    runLocal users cycles = ((runTiers (none, none) users cycles).2).flatten
    ∧ List.Forall₂ (fun u evs =>
        (∀ e ∈ evs, e.user = u ∧ e.ctxCycle = some e.cycle ∧ e.ctxUser = some e.user)
        ∧ (∀ w, w < u →
            ((evs.filter (fun e => e.worker == w)).map (fun e => (e.cycle, e.user)))
              = cycles.flatMap (fun c => List.replicate c (c, u)))
        ∧ (∀ w, u ≤ w → evs.filter (fun e => e.worker == w) = []))
        users ((runTiers (none, none) users cycles).2)
    ∧ (∀ u l₁ (c v : Nat) l₂, workerProg cycles u = l₁ ++ Instr.inv c v :: l₂ →
        ∃ l₃, l₂ = Instr.yld :: l₃) :=
  ⟨rfl, runTiers_spec cycles hc users (none, none),
    fun u l₁ c v l₂ he => yieldsAfterInv_decomp (yieldsAfterInv_workerProg u cycles) l₁ c v l₂ he⟩

/-- Witness for C6 at `users = [2]`, `cycles = [3]`. -/
theorem c6_local_scheduler_witness :
    runLocal [2] [3] = ((runTiers (none, none) [2] [3]).2).flatten
    ∧ List.Forall₂ (fun u evs =>
        (∀ e ∈ evs, e.user = u ∧ e.ctxCycle = some e.cycle ∧ e.ctxUser = some e.user)
        ∧ (∀ w, w < u →
            ((evs.filter (fun e => e.worker == w)).map (fun e => (e.cycle, e.user)))
              = ([3] : List Nat).flatMap (fun c => List.replicate c (c, u)))
        ∧ (∀ w, u ≤ w → evs.filter (fun e => e.worker == w) = []))
        [2] ((runTiers (none, none) [2] [3]).2)
    ∧ (∀ u l₁ (c v : Nat) l₂, workerProg [3] u = l₁ ++ Instr.inv c v :: l₂ →
        ∃ l₃, l₂ = Instr.yld :: l₃) :=
  c6_local_scheduler [2] [3] (by decide)

end Loads
